import Mathlib

/-!
Shallow embedding of the consistent-hash ring from consistent.go
(package consistent, repository junhaideng/consistent).

Modelling decisions:
* Go uint32 ring positions are represented as their natural-number values;
  the code only compares positions with < / >= / ==, which agree with Nat.
* The Go map servers (map of uint32 to string) is a Finmap over Nat keys;
  Go map insert / delete / read-with-zero-value become Finmap insert,
  erase and lookup with default "".
* The Go set nodes (map of string to the unit struct) is a Finset String.
* sort.Sort on a slice of uint32 produces the unique ascending permutation
  of the slice values, so it is modelled by insertion sort.
* sort.Search is modelled by the exact binary-search loop of the Go
  standard library (sortSearchAux below).
* A Go runtime panic is modelled by returning none: Get performs the index
  access circle[i] which panics on an empty slice, and Delete calls
  make with capacity len(circle) - replicas which panics when that int is
  negative, so both functions return Option values.
* The sync.RWMutex only serialises operations; the claims treated here are
  about sequential state transitions, so the lock itself has no content in
  the model.
-/

/-- One byte list of the UTF-8 encoding of a character (the byte values as
naturals), matching what the Go runtime feeds to the fnv hash. -/
def charUTF8 (ch : Char) : List Nat :=
  let n := ch.toNat
  if n < 128 then [n]
  else if n < 2048 then [192 + n / 64, 128 + n % 64]
  else if n < 65536 then [224 + n / 4096, 128 + (n / 64) % 64, 128 + n % 64]
  else [240 + n / 262144, 128 + (n / 4096) % 64, 128 + (n / 64) % 64, 128 + n % 64]

/-- Default hash of consistent.go: 32-bit FNV-1 (hash/fnv, fnv.New32) over
the UTF-8 bytes of the string.  Per byte: multiply by the FNV prime modulo
2^32, then xor the byte. -/
def fnv32 (s : String) : Nat :=
  (s.data.flatMap charUTF8).foldl
    (fun h b => (h * 16777619 % 4294967296) ^^^ b) 2166136261

/-- The ring state: struct consistent of consistent.go.  The embedded
sync.RWMutex carries no state in the sequential model. -/
structure consistent where
  replicas : Int
  nodes : Finset String
  servers : Finmap (fun _ : Nat => String)
  circle : List Nat
  hash : String → Nat

/-- func (c *consistent) hashKey: c.hash(strconv.Itoa(i) + key). -/
def consistent.hashKey (c : consistent) (key : String) (i : Nat) : Nat :=
  c.hash (toString i ++ key)

/-- sort.Sort on a uints slice: the unique ascending reordering. -/
def sortList (l : List Nat) : List Nat :=
  l.insertionSort (· ≤ ·)

/-- The loop body of func add: per replica index, append the hashed key to
the circle and write the node into the servers map. -/
def consistent.addLoop (c : consistent) (node : String) : List Nat → consistent
  | [] => c
  | i :: is =>
      consistent.addLoop
        { c with circle := c.circle ++ [c.hashKey node i],
                 servers := c.servers.insert (c.hashKey node i) node }
        node is

/-- func (c *consistent) add: run the replica loop, mark the node as a
member, then re-sort the circle. -/
def consistent.add (c : consistent) (node : String) : consistent :=
  let c1 := c.addLoop node (List.range c.replicas.toNat)
  { c1 with nodes := insert node c1.nodes, circle := sortList c1.circle }

/-- func (c *consistent) Add: lock, then add. -/
def consistent.Add (c : consistent) (slot : String) : consistent :=
  c.add slot

/-- Go map read with the string zero value: servers[p] is "" when p is not
a key of the map. -/
def lookupD (s : Finmap (fun _ : Nat => String)) (p : Nat) : String :=
  (s.lookup p).getD ""

/-- The binary-search loop of Go sort.Search: i, j := 0, n; while i < j,
probe m := (i+j)/2 and shrink the interval.  The first argument is fuel
bounding the number of loop iterations; it only makes the recursion
structural (each iteration shrinks j - i, so fuel n never runs out when
the loop starts from i, j = 0, n). -/
def sortSearchAux (f : Nat → Bool) : Nat → Nat → Nat → Nat
  | 0, i, _ => i
  | fuel + 1, i, j =>
    if i < j then
      let m := (i + j) / 2
      if f m then sortSearchAux f fuel i m else sortSearchAux f fuel (m + 1) j
    else i

/-- func sort.Search(n, f). -/
def sortSearch (n : Nat) (f : Nat → Bool) : Nat :=
  sortSearchAux f n 0 n

/-- func (c *consistent) Get: hash the name, binary search the circle for
the first position at least the hash, wrap to index 0 past the end, and
read the owner out of the servers map.  The index access circle[i] panics
(none) exactly when the circle is empty. -/
def consistent.Get (c : consistent) (name : String) : Option String :=
  let key := c.hash name
  let i0 := sortSearch c.circle.length (fun j => decide (key ≤ c.circle.getD j 0))
  let i := if c.circle.length ≤ i0 then 0 else i0
  (c.circle[i]?).map (fun p => lookupD c.servers p)

/-- func (c *consistent) Delete: drop the node from the member set, record
the replica positions of the node in memo while erasing them from the
servers map, then rebuild the circle keeping the positions outside memo.
The rebuild allocates with capacity len(circle) - replicas, which panics
(none) when that integer is negative. -/
def consistent.Delete (c : consistent) (node : String) : Option consistent :=
  let nodes' := c.nodes.erase node
  let memo := (List.range c.replicas.toNat).map (c.hashKey node)
  let servers' := memo.foldl (fun s p => s.erase p) c.servers
  if (c.circle.length : Int) - c.replicas < 0 then none
  else some { c with nodes := nodes', servers := servers',
                     circle := c.circle.filter (fun p => decide (p ∉ memo)) }

/-- func (c *consistent) Members: the snapshot of the member set (Go map
iteration order is not deterministic, so the observable value is the set). -/
def consistent.Members (c : consistent) : Finset String :=
  c.nodes

/-- The default ring literal inside func New. -/
def defaultRing : consistent :=
  { replicas := 20, nodes := ∅, servers := ∅, circle := [], hash := fnv32 }

/-- func WithReplicas. -/
def WithReplicas (count : Int) : consistent → consistent :=
  fun c => { c with replicas := count }

/-- func WithHash. -/
def WithHash (h : String → Nat) : consistent → consistent :=
  fun c => { c with hash := h }

/-- func New: start from the default ring and apply the options in order. -/
def New (options : List (consistent → consistent)) : consistent :=
  options.foldl (fun c o => o c) defaultRing

/-! ### Helper layer: characterizing the binary search and Get -/

/-- The replica index list 0..replicas-1 traversed by add and Delete. -/
def replicaIdx (c : consistent) : List Nat :=
  List.range c.replicas.toNat

/-- The virtual positions a node hashes to (also the memo set of Delete). -/
def posList (c : consistent) (node : String) : List Nat :=
  (replicaIdx c).map (c.hashKey node)

/-- The position selected by Get on a circle: the first listed position at
least k, else the head (used after the wrap to index 0). -/
def selPos (l : List Nat) (k : Nat) : Option Nat :=
  match l.find? (fun p => decide (k ≤ p)) with
  | some p => some p
  | none => l.head?
/-- Written from the spec wording of Get: compute k = hash(key), search the
position sequence for the first position at least k (inclusive lower
bound), and if no such position exists wrap around to the first (smallest)
position; return the node owning the selected position. -/
def GetSpec (c : consistent) (name : String) : Option String :=
  match c.circle.find? (fun p => decide (c.hash name ≤ p)) with
  | some p => some (lookupD c.servers p)
  | none => c.circle.head?.map (fun p => lookupD c.servers p)
/-- Written from the spec wording of Add: compute the positions
hash(stringify(i) + node) for i in 0..replicas-1, insert each into the
position-to-node map, append each to the position sequence, re-sort
ascending, and mark the node a member; nothing else changes. -/
def addSpec (c : consistent) (node : String) : consistent :=
  let positions := (List.range c.replicas.toNat).map (fun i => c.hash (toString i ++ node))
  { replicas := c.replicas,
    hash := c.hash,
    nodes := insert node c.nodes,
    servers := positions.foldl (fun s p => s.insert p node) c.servers,
    circle := sortList (c.circle ++ positions) }
/-- A small table hash used for concrete instances (custom hashes are
legitimate rings: the code exposes WithHash). -/
def hashW : String → Nat := fun s =>
  if s = "0A" then 5 else if s = "0B" then 10 else if s = "k" then 7 else 0

/-- A one-member ring at replicas 1: member A at position 5. -/
def ringW : consistent := (New [WithReplicas 1, WithHash hashW]).add "A"

/-- The two-member ring: A at position 5 and B at position 10. -/
def ringW2 : consistent := ringW.add "B"
/-- Ring states reachable from any fresh construction (New with any of the
two options) through the public Add and Delete, along executions on which
Delete does not panic. -/
inductive Reach : consistent → Prop
  | base (r : Int) (h : String → Nat) :
      Reach { replicas := r, nodes := ∅, servers := ∅, circle := [], hash := h }
  | add (c : consistent) (n : String) : Reach c → Reach (c.add n)
  | del (c c2 : consistent) (n : String) : Reach c → c.Delete n = some c2 → Reach c2
/-- The full ring invariant on collision-free executions: the circle is the
sorted duplicate-free list of the replicas positions of the members, the
servers map sends each replica position to its member, and distinct
(member, index) pairs occupy distinct positions. -/
structure CFInv (c : consistent) : Prop where
  sorted : c.circle.Sorted (· ≤ ·)
  nodup : c.circle.Nodup
  len : c.circle.length = c.replicas.toNat * c.nodes.card
  mem_circle : ∀ p, p ∈ c.circle ↔ ∃ m ∈ c.nodes, ∃ i < c.replicas.toNat, p = c.hashKey m i
  lookup_eq : ∀ m ∈ c.nodes, ∀ i < c.replicas.toNat, c.servers.lookup (c.hashKey m i) = some m
  keys_eq : ∀ p, p ∈ c.circle ↔ p ∈ c.servers
  inj : ∀ m ∈ c.nodes, ∀ m2 ∈ c.nodes, ∀ i < c.replicas.toNat, ∀ j < c.replicas.toNat,
    c.hashKey m i = c.hashKey m2 j → m = m2 ∧ i = j

/-- Collision-free reachability: as Reach, but each Add targets a
non-member whose fresh replica positions are pairwise distinct and unused,
and each Delete either targets a member or touches no occupied position. -/
inductive CFReach : consistent → Prop
  | base (r : Int) (h : String → Nat) :
      CFReach { replicas := r, nodes := ∅, servers := ∅, circle := [], hash := h }
  | add (c : consistent) (n : String) : CFReach c → n ∉ c.nodes →
      (∀ i < c.replicas.toNat, c.hashKey n i ∉ c.circle) →
      (∀ i < c.replicas.toNat, ∀ j < c.replicas.toNat, c.hashKey n i = c.hashKey n j → i = j) →
      CFReach (c.add n)
  | del (c c2 : consistent) (n : String) : CFReach c →
      (n ∈ c.nodes ∨ ∀ i < c.replicas.toNat, c.hashKey n i ∉ c.circle) →
      c.Delete n = some c2 → CFReach c2
/-- The all-zero hash: every virtual position collides at 0. -/
def hashZ : String → Nat := fun _ => 0

/-- The ring obtained by adding the same node twice at replicas 1. -/
def ring2a : consistent := ((New [WithReplicas 1, WithHash hashZ]).add "a").add "a"
/-- A table hash with a collision: nodes B and C share position 10 while A
sits at 5 and key k hashes to 7. -/
def hashC1 : String → Nat := fun s =>
  if s = "0A" then 5 else if s = "0B" then 10 else if s = "0C" then 10 else
    if s = "k" then 7 else 0

/-- The reachable ring with members C, B, A under hashC1: circle is
[5, 10, 10] and the last write wins at position 10, so servers maps 10 to
B and 5 to A. -/
def ringC1 : consistent :=
  (((New [WithReplicas 1, WithHash hashC1]).add "C").add "B").add "A"

theorem sortSearchAux_spec (f : Nat → Bool) :
    ∀ fuel i j, i ≤ j → j - i ≤ fuel →
      (∀ a b, i ≤ a → a ≤ b → b < j → f a = true → f b = true) →
      i ≤ sortSearchAux f fuel i j ∧ sortSearchAux f fuel i j ≤ j ∧
        (∀ x, i ≤ x → x < sortSearchAux f fuel i j → f x = false) ∧
        (sortSearchAux f fuel i j < j → f (sortSearchAux f fuel i j) = true) := by
  intro fuel
  induction fuel with
  | zero =>
      intro i j hij hfuel _
      have : i = j := by omega
      subst this
      simp [sortSearchAux]
      omega
  | succ fuel ih =>
      intro i j hij hfuel hmono
      by_cases hlt : i < j
      · have hm1 : i ≤ (i + j) / 2 := by omega
        have hm2 : (i + j) / 2 < j := by omega
        by_cases hf : f ((i + j) / 2) = true
        · have hres : sortSearchAux f (fuel + 1) i j = sortSearchAux f fuel i ((i + j) / 2) := by
            simp [sortSearchAux, hlt, hf]
          obtain ⟨h1, h2, h3, h4⟩ := ih i ((i + j) / 2) hm1 (by omega)
            (fun a b ha hab hb hfa => hmono a b ha hab (by omega) hfa)
          rw [hres]
          refine ⟨h1, by omega, h3, ?_⟩
          intro hrj
          rcases Nat.lt_or_ge (sortSearchAux f fuel i ((i + j) / 2)) ((i + j) / 2) with h | h
          · exact h4 h
          · have heq : sortSearchAux f fuel i ((i + j) / 2) = (i + j) / 2 := by omega
            rw [heq]; exact hf
        · have hfalse : f ((i + j) / 2) = false := by
            cases h : f ((i + j) / 2) with
            | true => exact absurd h hf
            | false => rfl
          have hres : sortSearchAux f (fuel + 1) i j = sortSearchAux f fuel ((i + j) / 2 + 1) j := by
            simp [sortSearchAux, hlt, hfalse]
          obtain ⟨h1, h2, h3, h4⟩ := ih ((i + j) / 2 + 1) j (by omega) (by omega)
            (fun a b ha hab hb hfa => hmono a b (by omega) hab hb hfa)
          rw [hres]
          refine ⟨by omega, h2, ?_, h4⟩
          intro x hx hxr
          rcases Nat.lt_or_ge ((i + j) / 2) x with h | h
          · exact h3 x (by omega) hxr
          · cases hfx : f x with
            | true =>
                have := hmono x ((i + j) / 2) hx h hm2 hfx
                rw [this] at hfalse; cases hfalse
            | false => rfl
      · have : i = j := by omega
        subst this
        simp [sortSearchAux, hlt]
        omega


theorem find?_of_getElem {α : Type} (p : α → Bool) (l : List α) (r : Nat)
    (hr : r < l.length)
    (hbefore : ∀ x (hx : x < r), p l[x] = false)
    (hit : p l[r] = true) : l.find? p = some l[r] := by
  induction l generalizing r with
  | nil => simp at hr
  | cons a t ih =>
      cases r with
      | zero =>
          have ha : p a = true := by simpa using hit
          simp [List.find?_cons_of_pos _ ha]
      | succ r =>
          have ha : p a = false := hbefore 0 (Nat.succ_pos r)
          have hneg : ¬ p a = true := by simp [ha]
          have hrt : r < t.length := by simpa using hr
          have ht : t.find? p = some t[r] :=
            ih r hrt (fun x hx => hbefore (x + 1) (by omega)) hit
          rw [List.find?_cons_of_neg _ hneg, ht]
          simp

theorem sorted_getElem_le {l : List Nat} (hs : l.Sorted (· ≤ ·)) {a b : Nat}
    (hab : a ≤ b) (hb : b < l.length) : l[a] ≤ l[b] := by
  rcases Nat.lt_or_ge a b with h | h
  · exact (List.pairwise_iff_getElem.mp hs) a b (by omega) hb h
  · have : a = b := by omega
    subst this; exact Nat.le_refl _

/-- On a sorted circle, Get is: map the default-read of the servers map
over the selected position. -/
theorem get_eq_selPos (c : consistent) (name : String)
    (hs : c.circle.Sorted (· ≤ ·)) :
    c.Get name = (selPos c.circle (c.hash name)).map (lookupD c.servers) := by
  unfold consistent.Get
  set l := c.circle with hl
  set k := c.hash name with hk
  set f : Nat → Bool := fun j => decide (k ≤ l.getD j 0) with hf
  have hmono : ∀ a b, 0 ≤ a → a ≤ b → b < l.length → f a = true → f b = true := by
    intro a b _ hab hb hfa
    have ha : a < l.length := by omega
    have h1 : k ≤ l[a] := by
      have := of_decide_eq_true hfa
      rwa [List.getD_eq_getElem l 0 ha] at this
    have h2 : l[a] ≤ l[b] := sorted_getElem_le hs hab hb
    simp only [hf, List.getD_eq_getElem l 0 hb]
    exact decide_eq_true (Nat.le_trans h1 h2)
  have hspec := sortSearchAux_spec f l.length 0 l.length (Nat.zero_le _) (Nat.le_refl _) hmono
  rw [show sortSearchAux f l.length 0 l.length = sortSearch l.length f from rfl] at hspec
  obtain ⟨hr0, hrn, hbefore, hhit⟩ := hspec
  have hbefore2 : ∀ x (hx : x < sortSearch l.length f), ¬ k ≤ l.getD x 0 :=
    fun x hx => of_decide_eq_false (hbefore x (Nat.zero_le _) hx)
  rcases Nat.lt_or_ge (sortSearch l.length f) l.length with hlt | hge
  · -- the search found an index inside the circle: no wrap
    have hif : ¬ l.length ≤ sortSearch l.length f := by omega
    simp only [if_neg hif]
    have hit : k ≤ l[sortSearch l.length f] := by
      have := of_decide_eq_true (hhit hlt)
      rwa [List.getD_eq_getElem l 0 hlt] at this
    have hfind : l.find? (fun p => decide (k ≤ p)) = some l[sortSearch l.length f] := by
      refine find?_of_getElem _ l _ hlt (fun x hx => ?_) (decide_eq_true hit)
      have := hbefore2 x hx
      rw [List.getD_eq_getElem l 0 (by omega)] at this
      exact decide_eq_false this
    rw [List.getElem?_eq_getElem hlt]
    simp [selPos, hfind]
  · -- the search ran off the end: wrap to index 0
    have hif : l.length ≤ sortSearch l.length f := hge
    simp only [if_pos hif]
    have hnone : l.find? (fun p => decide (k ≤ p)) = none := by
      rw [List.find?_eq_none]
      intro x hx
      obtain ⟨ix, hix, hxeq⟩ := List.mem_iff_getElem.mp hx
      have := hbefore2 ix (by omega)
      rw [List.getD_eq_getElem l 0 hix, hxeq] at this
      simpa using this
    simp only [selPos, hnone]
    rw [List.head?_eq_getElem?]

theorem find?_sorted_min {l : List Nat} {k p : Nat} (hs : l.Sorted (· ≤ ·))
    (h : l.find? (fun q => decide (k ≤ q)) = some p) :
    p ∈ l ∧ k ≤ p ∧ ∀ q ∈ l, k ≤ q → p ≤ q := by
  induction l with
  | nil => simp at h
  | cons a t ih =>
      by_cases hka : k ≤ a
      · rw [List.find?_cons] at h
        simp only [decide_eq_true hka] at h
        cases h
        refine ⟨List.mem_cons_self _ _, hka, ?_⟩
        intro q hq _
        rcases List.mem_cons.mp hq with rfl | hq
        · exact Nat.le_refl _
        · exact List.rel_of_sorted_cons hs q hq
      · rw [List.find?_cons] at h
        simp only [decide_eq_false hka] at h
        obtain ⟨hmem, hkp, hmin⟩ := ih (List.sorted_cons.mp hs).2 h
        refine ⟨List.mem_cons_of_mem _ hmem, hkp, ?_⟩
        intro q hq hkq
        rcases List.mem_cons.mp hq with rfl | hq
        · exact absurd hkq hka
        · exact hmin q hq hkq

theorem find?_sorted_of_min {l : List Nat} {k p : Nat} (hs : l.Sorted (· ≤ ·))
    (hmem : p ∈ l) (hkp : k ≤ p) (hmin : ∀ q ∈ l, k ≤ q → p ≤ q) :
    l.find? (fun q => decide (k ≤ q)) = some p := by
  induction l with
  | nil => simp at hmem
  | cons a t ih =>
      by_cases hka : k ≤ a
      · rw [List.find?_cons]
        simp only [decide_eq_true hka]
        have hpa : p ≤ a := hmin a (List.mem_cons_self _ _) hka
        rcases List.mem_cons.mp hmem with rfl | hp
        · rfl
        · have : a ≤ p := List.rel_of_sorted_cons hs p hp
          have : p = a := Nat.le_antisymm hpa this
          rw [this]
      · rw [List.find?_cons]
        simp only [decide_eq_false hka]
        rcases List.mem_cons.mp hmem with rfl | hp
        · exact absurd hkp hka
        · exact ih (List.sorted_cons.mp hs).2 hp
            (fun q hq hkq => hmin q (List.mem_cons_of_mem _ hq) hkq)

theorem head?_sorted_min {l : List Nat} {p : Nat} (hs : l.Sorted (· ≤ ·))
    (h : l.head? = some p) : p ∈ l ∧ ∀ q ∈ l, p ≤ q := by
  cases l with
  | nil => simp at h
  | cons a t =>
      cases h
      refine ⟨List.mem_cons_self _ _, ?_⟩
      intro q hq
      rcases List.mem_cons.mp hq with rfl | hq
      · exact Nat.le_refl _
      · exact List.rel_of_sorted_cons hs q hq

theorem head?_sorted_of_min {l : List Nat} {p : Nat} (hs : l.Sorted (· ≤ ·))
    (hmem : p ∈ l) (hmin : ∀ q ∈ l, p ≤ q) : l.head? = some p := by
  cases l with
  | nil => simp at hmem
  | cons a t =>
      have hpa : p ≤ a := hmin a (List.mem_cons_self _ _)
      rcases List.mem_cons.mp hmem with rfl | hp
      · rfl
      · have : a ≤ p := List.rel_of_sorted_cons hs p hp
        have : p = a := Nat.le_antisymm hpa this
        rw [List.head?_cons, this]

theorem selPos_mem {l : List Nat} {k p : Nat} (h : selPos l k = some p) : p ∈ l := by
  unfold selPos at h
  cases hf : l.find? (fun q => decide (k ≤ q)) with
  | some q => rw [hf] at h; cases h; exact List.mem_of_find?_eq_some hf
  | none =>
      rw [hf] at h
      cases l with
      | nil => simp at h
      | cons a t => cases h; exact List.mem_cons_self _ _

theorem selPos_isSome {l : List Nat} (k : Nat) (hne : l ≠ []) :
    ∃ p, selPos l k = some p := by
  unfold selPos
  cases hf : l.find? (fun q => decide (k ≤ q)) with
  | some q => exact ⟨q, rfl⟩
  | none =>
      cases l with
      | nil => exact absurd rfl hne
      | cons a t => exact ⟨a, rfl⟩

/-- Two sorted lists with the same elements select the same position. -/
theorem selPos_congr {l1 l2 : List Nat} (k : Nat)
    (hs1 : l1.Sorted (· ≤ ·)) (hs2 : l2.Sorted (· ≤ ·))
    (hmem : ∀ p, p ∈ l1 ↔ p ∈ l2) : selPos l1 k = selPos l2 k := by
  unfold selPos
  cases hf : l1.find? (fun q => decide (k ≤ q)) with
  | some p =>
      obtain ⟨hp, hkp, hmin⟩ := find?_sorted_min hs1 hf
      rw [find?_sorted_of_min hs2 ((hmem p).mp hp) hkp
        (fun q hq hkq => hmin q ((hmem q).mpr hq) hkq)]
  | none =>
      have hnone : l2.find? (fun q => decide (k ≤ q)) = none := by
        rw [List.find?_eq_none] at hf ⊢
        intro x hx
        exact hf x ((hmem x).mpr hx)
      rw [hnone]
      change l1.head? = l2.head?
      cases hl1 : l1 with
      | nil =>
          have : l2 = [] := by
            cases hl2 : l2 with
            | nil => rfl
            | cons b t2 =>
                have : b ∈ l1 := (hmem b).mpr (by rw [hl2]; exact List.mem_cons_self _ _)
                rw [hl1] at this; simp at this
          rw [this]
      | cons a t1 =>
          have ha : a ∈ l1 := by rw [hl1]; exact List.mem_cons_self _ _
          have hhead : l1.head? = some a := by rw [hl1]; rfl
          obtain ⟨_, hmin⟩ := head?_sorted_min hs1 hhead
          rw [← hl1, hhead, head?_sorted_of_min hs2 ((hmem a).mp ha)
            (fun q hq => hmin q ((hmem q).mpr hq))]

/-- Removing only elements other than the selected position keeps the
selected position unchanged. -/
theorem selPos_filter {l : List Nat} {k p : Nat} (q : Nat → Bool)
    (hs : l.Sorted (· ≤ ·)) (h : selPos l k = some p) (hkeep : q p = true) :
    selPos (l.filter q) k = some p := by
  have hs2 : (l.filter q).Sorted (· ≤ ·) := hs.filter q
  unfold selPos at h ⊢
  cases hf : l.find? (fun r => decide (k ≤ r)) with
  | some r =>
      rw [hf] at h; cases h
      obtain ⟨hp, hkp, hmin⟩ := find?_sorted_min hs hf
      rw [find?_sorted_of_min hs2 (List.mem_filter.mpr ⟨hp, hkeep⟩) hkp
        (fun x hx hkx => hmin x (List.mem_filter.mp hx).1 hkx)]
  | none =>
      rw [hf] at h
      obtain ⟨hp, hmin⟩ := head?_sorted_min hs h
      have hnone : (l.filter q).find? (fun r => decide (k ≤ r)) = none := by
        rw [List.find?_eq_none] at hf ⊢
        intro x hx
        exact hf x (List.mem_filter.mp hx).1
      rw [hnone]
      exact head?_sorted_of_min hs2 (List.mem_filter.mpr ⟨hp, hkeep⟩)
        (fun x hx => hmin x (List.mem_filter.mp hx).1)

/-! ### Helper layer: the servers map under the add and Delete folds -/

theorem lookup_insertFold (P : List Nat) (v : String)
    (s : Finmap (fun _ : Nat => String)) (q : Nat) :
    ((P.foldl (fun m p => m.insert p v) s).lookup q) =
      if q ∈ P then some v else s.lookup q := by
  induction P generalizing s with
  | nil => simp
  | cons p P ih =>
      rw [List.foldl_cons, ih]
      by_cases hqP : q ∈ P
      · simp [hqP, List.mem_cons]
      · by_cases hqp : q = p
        · subst hqp
          simp [hqP, Finmap.lookup_insert]
        · simp [hqP, hqp, Finmap.lookup_insert_of_ne _ hqp]

theorem lookup_eraseFold (K : List Nat)
    (s : Finmap (fun _ : Nat => String)) (q : Nat) :
    ((K.foldl (fun m p => m.erase p) s).lookup q) =
      if q ∈ K then none else s.lookup q := by
  induction K generalizing s with
  | nil => simp
  | cons p K ih =>
      rw [List.foldl_cons, ih]
      by_cases hqK : q ∈ K
      · simp [hqK, List.mem_cons]
      · by_cases hqp : q = p
        · subst hqp
          simp [hqK, Finmap.lookup_erase]
        · simp [hqK, hqp, Finmap.lookup_erase_ne hqp]

theorem mem_insertFold (P : List Nat) (v : String)
    (s : Finmap (fun _ : Nat => String)) (q : Nat) :
    q ∈ P.foldl (fun m p => m.insert p v) s ↔ q ∈ P ∨ q ∈ s := by
  rw [Finmap.mem_iff, lookup_insertFold]
  by_cases hqP : q ∈ P
  · simp [hqP]
  · simp [hqP, Finmap.mem_iff]

theorem mem_eraseFold (K : List Nat)
    (s : Finmap (fun _ : Nat => String)) (q : Nat) :
    q ∈ K.foldl (fun m p => m.erase p) s ↔ q ∉ K ∧ q ∈ s := by
  rw [Finmap.mem_iff, lookup_eraseFold]
  by_cases hqK : q ∈ K
  · simp [hqK]
  · simp [hqK, Finmap.mem_iff]

/-! ### Helper layer: closed forms of add and Delete -/

theorem addLoop_eq (c : consistent) (node : String) (is : List Nat) :
    c.addLoop node is =
      { c with circle := c.circle ++ is.map (c.hashKey node),
               servers := is.foldl (fun s i => s.insert (c.hashKey node i) node) c.servers } := by
  induction is generalizing c with
  | nil => simp [consistent.addLoop]
  | cons i is ih =>
      rw [consistent.addLoop, ih]
      simp [consistent.hashKey, List.append_assoc]

/-- The closed form of func add. -/
theorem add_eq (c : consistent) (node : String) :
    c.add node =
      { c with nodes := insert node c.nodes,
               circle := sortList (c.circle ++ posList c node),
               servers := (posList c node).foldl (fun s p => s.insert p node) c.servers } := by
  unfold consistent.add
  rw [addLoop_eq]
  simp [posList, replicaIdx, List.foldl_map]

/-- The closed form of func Delete when the capacity is not negative. -/
theorem delete_eq (c : consistent) (node : String)
    (h : c.replicas ≤ (c.circle.length : Int)) :
    c.Delete node =
      some { c with nodes := c.nodes.erase node,
                    servers := (posList c node).foldl (fun s p => s.erase p) c.servers,
                    circle := c.circle.filter (fun p => decide (p ∉ posList c node)) } := by
  unfold consistent.Delete
  rw [if_neg (by omega)]
  simp [posList, replicaIdx]

/-- Delete fails (the make call panics on a negative capacity) exactly when
the circle holds fewer than replicas entries. -/
theorem delete_none_iff (c : consistent) (node : String) :
    c.Delete node = none ↔ (c.circle.length : Int) < c.replicas := by
  unfold consistent.Delete
  by_cases h : (c.circle.length : Int) - c.replicas < 0
  · simp [h]; omega
  · simp [h]; omega

theorem add_replicas (c : consistent) (n : String) : (c.add n).replicas = c.replicas := by
  rw [add_eq]

theorem add_hash (c : consistent) (n : String) : (c.add n).hash = c.hash := by
  rw [add_eq]

theorem add_nodes (c : consistent) (n : String) : (c.add n).nodes = insert n c.nodes := by
  rw [add_eq]

theorem add_circle (c : consistent) (n : String) :
    (c.add n).circle = sortList (c.circle ++ posList c n) := by
  rw [add_eq]

theorem add_posList (c : consistent) (n m : String) :
    posList (c.add n) m = posList c m := by
  simp [posList, replicaIdx, consistent.hashKey, add_replicas, add_hash]

theorem sortList_sorted (l : List Nat) : (sortList l).Sorted (· ≤ ·) :=
  List.sorted_insertionSort _ l

theorem sortList_perm (l : List Nat) : List.Perm (sortList l) l :=
  List.perm_insertionSort _ l

theorem mem_sortList (l : List Nat) (p : Nat) : p ∈ sortList l ↔ p ∈ l :=
  (sortList_perm l).mem_iff

/-! ### The spec-side definitions used by the refinement claims -/


theorem getSpec_eq_selPos (c : consistent) (name : String) :
    GetSpec c name = (selPos c.circle (c.hash name)).map (lookupD c.servers) := by
  unfold GetSpec selPos
  cases hf : c.circle.find? (fun p => decide (c.hash name ≤ p)) with
  | some p => rfl
  | none => cases c.circle <;> rfl


/-! ### Claim theorems, first batch -/

/-- Claim C3: on every non-empty ring state (whose position sequence is
sorted, the standing data-model invariant), Get computes k = hash(key),
binary-searches the sorted position sequence for the first position at
least k (an exact tie resolving to that position), wraps to the smallest
position when k exceeds every position, and returns the owner of the
selected position - that is, Get agrees with the spec-side GetSpec. -/
theorem get_refines_spec (c : consistent) (name : String)
    (hs : c.circle.Sorted (· ≤ ·)) (hne : c.circle ≠ []) :
    c.Get name = GetSpec c name := by
  rw [get_eq_selPos c name hs, getSpec_eq_selPos]

/-- Claim C4: for replicas at least 1, add computes exactly the replica
positions, inserts them into the position map, appends them to the
position sequence, re-sorts it, and marks the node a member; no other
state component changes - add agrees with the spec-side addSpec. -/
theorem add_refines_spec (c : consistent) (node : String)
    (hrep : (1 : Int) ≤ c.replicas) : c.add node = addSpec c node := by
  rw [add_eq]
  have hkey : c.hashKey node = fun i => c.hash (toString i ++ node) := rfl
  simp [addSpec, posList, replicaIdx, hkey]

/-- Claim C2 (the code contradicts it): on the freshly constructed ring with
zero members, Get does not signal a distinguishable no-nodes condition; it
reaches the index access circle[0] on the empty circle, a runtime panic
(modelled as none), for every key. -/
theorem get_empty_ring_panics :
    (New []).nodes = ∅ ∧ ∀ name, (New []).Get name = none :=
  ⟨rfl, fun _ => rfl⟩

/-- Claim C8 (the code contradicts it): New applies WithReplicas 0 without
any validation and silently returns a ring with replicas = 0; add on that
ring places no virtual nodes yet marks the node a member. -/
theorem new_accepts_nonpositive_replicas :
    (New [WithReplicas 0]).replicas = 0 ∧
      ((New [WithReplicas 0]).add "a").circle = [] ∧
      "a" ∈ ((New [WithReplicas 0]).add "a").nodes :=
  ⟨rfl, rfl, by decide⟩

/-- Claim C9: on every ring state whose circle holds fewer than replicas
positions, Delete fails for every node: the make call receives the
negative capacity len(circle) - replicas and panics (modelled as none). -/
theorem delete_underfilled_panics (c : consistent) (n : String)
    (h : (c.circle.length : Int) < c.replicas) : c.Delete n = none :=
  (delete_none_iff c n).mpr h

theorem delete_underfilled_panics_witness :
    ((New []).circle.length : Int) < (New []).replicas ∧ (New []).Delete "x" = none :=
  ⟨by decide, delete_underfilled_panics (New []) "x" (by decide)⟩

theorem add_servers_lookup (c : consistent) (n : String) (q : Nat) :
    (c.add n).servers.lookup q =
      if q ∈ posList c n then some n else c.servers.lookup q := by
  rw [add_eq]
  exact lookup_insertFold (posList c n) n c.servers q

/-- Claim C5: adding the same node twice is observably the same as adding
it once - Get agrees on every key and the member set is the same. -/
theorem add_idempotent_observable (c : consistent) (A : String) :
    (∀ key, ((c.add A).add A).Get key = (c.add A).Get key) ∧
      ((c.add A).add A).Members = (c.add A).Members := by
  constructor
  · intro key
    have hs1 : (c.add A).circle.Sorted (· ≤ ·) := by
      rw [add_circle]; exact sortList_sorted _
    have hs2 : ((c.add A).add A).circle.Sorted (· ≤ ·) := by
      rw [add_circle]; exact sortList_sorted _
    have hmem : ∀ p, p ∈ ((c.add A).add A).circle ↔ p ∈ (c.add A).circle := by
      intro p
      simp only [add_circle, add_posList, mem_sortList, List.mem_append]
      tauto
    have hservers : ∀ q, ((c.add A).add A).servers.lookup q = (c.add A).servers.lookup q := by
      intro q
      by_cases hq : q ∈ posList c A <;>
        simp [add_servers_lookup, add_posList, hq]
    rw [get_eq_selPos _ key hs2, get_eq_selPos _ key hs1, add_hash, add_hash,
        selPos_congr (c.hash key) hs2 hs1 hmem]
    cases hsel : selPos (c.add A).circle (c.hash key) with
    | none => rfl
    | some p =>
        show some (lookupD ((c.add A).add A).servers p) = some (lookupD (c.add A).servers p)
        rw [lookupD, lookupD, hservers p]
  · show ((c.add A).add A).nodes = (c.add A).nodes
    simp [add_nodes]

theorem mem_posList {c : consistent} {n : String} {p : Nat} :
    p ∈ posList c n ↔ ∃ i < c.replicas.toNat, p = c.hashKey n i := by
  simp only [posList, replicaIdx, List.mem_map, List.mem_range]
  constructor
  · rintro ⟨i, hi, rfl⟩; exact ⟨i, hi, rfl⟩
  · rintro ⟨i, hi, rfl⟩; exact ⟨i, hi, rfl⟩

theorem delete_nonmember_eq_self (c : consistent) (n : String)
    (hmem : n ∉ c.nodes)
    (hlen : c.replicas ≤ (c.circle.length : Int))
    (hcircle : ∀ i < c.replicas.toNat, c.hashKey n i ∉ c.circle)
    (hserv : ∀ i < c.replicas.toNat, c.servers.lookup (c.hashKey n i) = none) :
    c.Delete n = some c := by
  rw [delete_eq c n hlen]
  have hnodes : c.nodes.erase n = c.nodes := Finset.erase_eq_of_not_mem hmem
  have hcirc : c.circle.filter (fun p => decide (p ∉ posList c n)) = c.circle := by
    rw [List.filter_eq_self]
    intro p hp
    refine decide_eq_true (fun hpP => ?_)
    obtain ⟨i, hi, rfl⟩ := mem_posList.mp hpP
    exact hcircle i hi hp
  have hservers : (posList c n).foldl (fun s p => s.erase p) c.servers = c.servers := by
    apply Finmap.ext_lookup; intro q
    rw [lookup_eraseFold]
    by_cases hq : q ∈ posList c n
    · rw [if_pos hq]
      obtain ⟨i, hi, rfl⟩ := mem_posList.mp hq
      exact (hserv i hi).symm
    · rw [if_neg hq]
  rw [hnodes, hcirc, hservers]

/-- Claim C6 amended: deleting a non-member is a no-op (the state is left
exactly unchanged and no error occurs) provided the circle holds at least
replicas positions (otherwise the make call panics) and no replica
position of the node collides with an occupied position. -/
theorem delete_nonmember_noop (c : consistent) (n : String)
    (hmem : n ∉ c.nodes)
    (hlen : c.replicas ≤ (c.circle.length : Int))
    (hcircle : ∀ i < c.replicas.toNat, c.hashKey n i ∉ c.circle)
    (hserv : ∀ i < c.replicas.toNat, c.servers.lookup (c.hashKey n i) = none) :
    c.Delete n = some c :=
  delete_nonmember_eq_self c n hmem hlen hcircle hserv

/-- Claim C6 as stated is false: on the freshly constructed ring (a ring
state, with no members) deleting the non-member x is not a no-op that
completes without error - Delete panics on the negative make capacity
0 - 20 (modelled as none). -/
theorem delete_nonmember_cex :
    "x" ∉ (New []).nodes ∧ (New []).Delete "x" = none :=
  ⟨by decide, rfl⟩

/-- Claim C10: Add(n) followed by Delete(n), for a non-member n none of
whose replica positions is already occupied, restores the starting state
exactly (the ring state being sorted, per the data-model invariant). -/
theorem add_delete_roundtrip (c : consistent) (n : String)
    (hs : c.circle.Sorted (· ≤ ·))
    (hmem : n ∉ c.nodes)
    (hfresh : ∀ i < c.replicas.toNat, c.hashKey n i ∉ c.circle)
    (hserv : ∀ i < c.replicas.toNat, c.servers.lookup (c.hashKey n i) = none) :
    (c.add n).Delete n = some c := by
  have hplen : (posList c n).length = c.replicas.toNat := by
    simp [posList, replicaIdx]
  have hlen : (c.add n).replicas ≤ ((c.add n).circle.length : Int) := by
    rw [add_replicas, add_circle, (sortList_perm _).length_eq, List.length_append, hplen]
    omega
  rw [delete_eq _ _ hlen]
  have hP : posList (c.add n) n = posList c n := add_posList c n n
  have hnodes : (c.add n).nodes.erase n = c.nodes := by
    rw [add_nodes, Finset.erase_insert hmem]
  have hcirc : (c.add n).circle.filter (fun p => decide (p ∉ posList c n)) = c.circle := by
    rw [add_circle]
    refine List.eq_of_perm_of_sorted ?_ ((sortList_sorted _).filter _) hs
    refine ((sortList_perm _).filter _).trans ?_
    rw [List.filter_append]
    have h1 : c.circle.filter (fun p => decide (p ∉ posList c n)) = c.circle := by
      rw [List.filter_eq_self]
      intro p hp
      refine decide_eq_true (fun hpP => ?_)
      obtain ⟨i, hi, rfl⟩ := mem_posList.mp hpP
      exact hfresh i hi hp
    have h2 : (posList c n).filter (fun p => decide (p ∉ posList c n)) = [] := by
      rw [List.filter_eq_nil_iff]
      intro p hp
      simp [hp]
    rw [h1, h2, List.append_nil]
  have hservers :
      (posList c n).foldl (fun s p => s.erase p) (c.add n).servers = c.servers := by
    apply Finmap.ext_lookup; intro q
    rw [lookup_eraseFold]
    by_cases hq : q ∈ posList c n
    · rw [if_pos hq]
      obtain ⟨i, hi, rfl⟩ := mem_posList.mp hq
      exact (hserv i hi).symm
    · rw [if_neg hq, add_servers_lookup, if_neg hq]
  rw [hP, hnodes, hcirc, hservers]
  rw [add_replicas, add_hash]


theorem get_refines_spec_witness :
    ringW.circle.Sorted (· ≤ ·) ∧ ringW.circle ≠ [] ∧
      ringW.Get "k" = GetSpec ringW "k" :=
  ⟨by decide, by decide, get_refines_spec ringW "k" (by decide) (by decide)⟩

theorem add_refines_spec_witness :
    (1 : Int) ≤ ringW.replicas ∧ ringW.add "B" = addSpec ringW "B" :=
  ⟨by decide, add_refines_spec ringW "B" (by decide)⟩

theorem delete_nonmember_noop_witness :
    "B" ∉ ringW.nodes ∧ ringW.Delete "B" = some ringW :=
  ⟨by decide, delete_nonmember_noop ringW "B" (by decide) (by decide)
    (by decide) (by decide)⟩


theorem add_delete_roundtrip_witness :
    "B" ∉ ringW.nodes ∧ ringW.circle.Sorted (· ≤ ·) ∧
      (ringW.add "B").Delete "B" = some ringW :=
  ⟨by decide, by decide, add_delete_roundtrip ringW "B" (by decide) (by decide)
    (by decide) (by decide)⟩

/-! ### Reachable states and the ring invariants -/


theorem add_servers_mem (c : consistent) (n : String) (q : Nat) :
    q ∈ (c.add n).servers ↔ q ∈ posList c n ∨ q ∈ c.servers := by
  rw [add_eq]
  exact mem_insertFold (posList c n) n c.servers q

theorem delete_some (c : consistent) (n : String) (c2 : consistent)
    (h : c.Delete n = some c2) :
    c.replicas ≤ (c.circle.length : Int) ∧
      c2 = { c with nodes := c.nodes.erase n,
                    servers := (posList c n).foldl (fun s p => s.erase p) c.servers,
                    circle := c.circle.filter (fun p => decide (p ∉ posList c n)) } := by
  by_cases hlen : c.replicas ≤ (c.circle.length : Int)
  · rw [delete_eq c n hlen] at h
    exact ⟨hlen, (Option.some.inj h).symm⟩
  · rw [(delete_none_iff c n).mpr (by omega)] at h
    cases h

/-- Unconditional invariant of every reachable state: the circle is sorted
and its elements are exactly the keys of the servers map. -/
theorem reach_basicInv (c : consistent) (hr : Reach c) :
    c.circle.Sorted (· ≤ ·) ∧ ∀ p, p ∈ c.circle ↔ p ∈ c.servers := by
  induction hr with
  | base r h =>
      refine ⟨List.sorted_nil, fun p => ?_⟩
      simp [Finmap.not_mem_empty]
  | add c n _ ih =>
      refine ⟨by rw [add_circle]; exact sortList_sorted _, fun p => ?_⟩
      rw [add_circle, mem_sortList, List.mem_append, add_servers_mem, ih.2 p]
      tauto
  | del c c2 n _ hdel ih =>
      obtain ⟨hlen, rfl⟩ := delete_some c n _ hdel
      refine ⟨ih.1.filter _, fun p => ?_⟩
      show p ∈ c.circle.filter (fun p => decide (p ∉ posList c n)) ↔
        p ∈ (posList c n).foldl (fun s p => s.erase p) c.servers
      rw [List.mem_filter, mem_eraseFold, ih.2 p]
      simp only [decide_eq_true_eq]
      tauto


theorem cfinv_base (r : Int) (h : String → Nat) :
    CFInv { replicas := r, nodes := ∅, servers := ∅, circle := [], hash := h } := by
  refine ⟨List.sorted_nil, List.nodup_nil, by simp, ?_, ?_, ?_, ?_⟩
  · intro p; simp
  · intro m hm; simp at hm
  · intro p; simp [Finmap.not_mem_empty]
  · intro m hm; simp at hm

theorem posList_nodup (c : consistent) (n : String)
    (hinj : ∀ i < c.replicas.toNat, ∀ j < c.replicas.toNat,
      c.hashKey n i = c.hashKey n j → i = j) : (posList c n).Nodup := by
  have hrange : (replicaIdx c).Nodup := List.nodup_range _
  refine List.Nodup.map_on ?_ hrange
  intro x hx y hy hxy
  have hx2 : x < c.replicas.toNat := List.mem_range.mp hx
  have hy2 : y < c.replicas.toNat := List.mem_range.mp hy
  exact hinj x hx2 y hy2 hxy

theorem posList_length (c : consistent) (n : String) :
    (posList c n).length = c.replicas.toNat := by
  simp [posList, replicaIdx]

theorem cfinv_add (c : consistent) (n : String) (inv : CFInv c)
    (hmem : n ∉ c.nodes)
    (hfresh : ∀ i < c.replicas.toNat, c.hashKey n i ∉ c.circle)
    (hinj : ∀ i < c.replicas.toNat, ∀ j < c.replicas.toNat,
      c.hashKey n i = c.hashKey n j → i = j) :
    CFInv (c.add n) := by
  have hKn : ∀ m ∈ c.nodes, ∀ i, i < c.replicas.toNat → ∀ j, j < c.replicas.toNat →
      c.hashKey m i ≠ c.hashKey n j := by
    intro m hm i hi j hj heq
    have h1 : c.hashKey m i ∈ c.circle := (inv.mem_circle _).mpr ⟨m, hm, i, hi, rfl⟩
    rw [heq] at h1
    exact hfresh j hj h1
  have hPc : ∀ p ∈ posList c n, p ∉ c.circle := by
    intro p hp
    obtain ⟨i, hi, rfl⟩ := mem_posList.mp hp
    exact hfresh i hi
  rw [add_eq]
  refine ⟨sortList_sorted _, ?_, ?_, ?_, ?_, ?_, ?_⟩
  · rw [(sortList_perm _).nodup_iff, List.nodup_append]
    refine ⟨inv.nodup, posList_nodup c n hinj, ?_⟩
    intro p hp hpP
    exact hPc p hpP hp
  · show (sortList (c.circle ++ posList c n)).length = c.replicas.toNat * (insert n c.nodes).card
    rw [(sortList_perm _).length_eq, List.length_append, posList_length,
      Finset.card_insert_of_not_mem hmem, inv.len, Nat.mul_succ]
  · intro p
    show p ∈ sortList (c.circle ++ posList c n) ↔ _
    rw [mem_sortList, List.mem_append, inv.mem_circle p]
    constructor
    · rintro (⟨m, hm, i, hi, rfl⟩ | hP)
      · exact ⟨m, Finset.mem_insert_of_mem hm, i, hi, rfl⟩
      · obtain ⟨i, hi, rfl⟩ := mem_posList.mp hP
        exact ⟨n, Finset.mem_insert_self _ _, i, hi, rfl⟩
    · rintro ⟨m, hm, i, hi, rfl⟩
      rcases Finset.mem_insert.mp hm with rfl | hm
      · exact Or.inr (mem_posList.mpr ⟨i, hi, rfl⟩)
      · exact Or.inl ⟨m, hm, i, hi, rfl⟩
  · intro m hm i hi
    have hm2 : m ∈ insert n c.nodes := hm
    have hi2 : i < c.replicas.toNat := hi
    show ((posList c n).foldl (fun s p => s.insert p n) c.servers).lookup (c.hashKey m i) = some m
    rw [lookup_insertFold]
    rcases Finset.mem_insert.mp hm2 with rfl | hm3
    · rw [if_pos (mem_posList.mpr ⟨i, hi2, rfl⟩)]
    · have hno : c.hashKey m i ∉ posList c n := by
        intro hP
        obtain ⟨j, hj, heq⟩ := mem_posList.mp hP
        exact hKn m hm3 i hi2 j hj heq
      rw [if_neg hno]
      exact inv.lookup_eq m hm3 i hi2
  · intro p
    show p ∈ sortList (c.circle ++ posList c n) ↔
      p ∈ (posList c n).foldl (fun s p => s.insert p n) c.servers
    rw [mem_sortList, List.mem_append, mem_insertFold, inv.keys_eq p]
    tauto
  · intro m hm m2 hm2 i hi j hj heq
    have hma : m ∈ insert n c.nodes := hm
    have hmb : m2 ∈ insert n c.nodes := hm2
    have hia : i < c.replicas.toNat := hi
    have hja : j < c.replicas.toNat := hj
    have heq2 : c.hashKey m i = c.hashKey m2 j := heq
    rcases Finset.mem_insert.mp hma with rfl | hmc
    · rcases Finset.mem_insert.mp hmb with rfl | hmd
      · exact ⟨rfl, hinj i hia j hja heq2⟩
      · exact absurd heq2.symm (hKn m2 hmd j hja i hia)
    · rcases Finset.mem_insert.mp hmb with rfl | hmd
      · exact absurd heq2 (hKn m hmc i hia j hja)
      · exact inv.inj m hmc m2 hmd i hia j hja heq2

theorem cfinv_del (c : consistent) (n : String) (c2 : consistent) (inv : CFInv c)
    (hcase : n ∈ c.nodes ∨ ∀ i < c.replicas.toNat, c.hashKey n i ∉ c.circle)
    (hdel : c.Delete n = some c2) : CFInv c2 := by
  by_cases hn : n ∈ c.nodes
  · obtain ⟨hlen, rfl⟩ := delete_some c n _ hdel
    have hPsub : ∀ p ∈ posList c n, p ∈ c.circle := by
      intro p hp
      obtain ⟨i, hi, rfl⟩ := mem_posList.mp hp
      exact (inv.mem_circle _).mpr ⟨n, hn, i, hi, rfl⟩
    have hnotP : ∀ m ∈ c.nodes, m ≠ n →
        ∀ i, i < c.replicas.toNat → c.hashKey m i ∉ posList c n := by
      intro m hm hmn i hi hP
      obtain ⟨j, hj, heq⟩ := mem_posList.mp hP
      exact hmn (inv.inj m hm n hn i hi j hj heq).1
    have hPnodup : (posList c n).Nodup :=
      posList_nodup c n (fun i hi j hj heq => (inv.inj n hn n hn i hi j hj heq).2)
    refine ⟨inv.sorted.filter _, inv.nodup.filter _, ?_, ?_, ?_, ?_, ?_⟩
    · show (c.circle.filter (fun p => decide (p ∉ posList c n))).length
        = c.replicas.toNat * (c.nodes.erase n).card
      have hfin : (c.circle.filter (fun p => decide (p ∉ posList c n))).toFinset
          = c.circle.toFinset \ (posList c n).toFinset := by
        ext q
        simp only [List.mem_toFinset, Finset.mem_sdiff, List.mem_filter,
          decide_eq_true_eq]
      have hsub : (posList c n).toFinset ⊆ c.circle.toFinset := by
        intro q hq
        rw [List.mem_toFinset] at hq ⊢
        exact hPsub q hq
      rw [← List.toFinset_card_of_nodup (inv.nodup.filter _), hfin,
        Finset.card_sdiff hsub, List.toFinset_card_of_nodup inv.nodup,
        List.toFinset_card_of_nodup hPnodup, posList_length, inv.len,
        Finset.card_erase_of_mem hn]
      have hcard : 1 ≤ c.nodes.card := Finset.card_pos.mpr ⟨n, hn⟩
      obtain ⟨k, hk⟩ : ∃ k, c.nodes.card = k + 1 := ⟨c.nodes.card - 1, by omega⟩
      rw [hk, Nat.mul_succ, Nat.add_sub_cancel, Nat.add_sub_cancel]
    · intro p
      show p ∈ c.circle.filter (fun p => decide (p ∉ posList c n)) ↔
        ∃ m ∈ c.nodes.erase n, ∃ i < c.replicas.toNat, p = c.hashKey m i
      rw [List.mem_filter]
      simp only [decide_eq_true_eq]
      constructor
      · rintro ⟨hp, hpP⟩
        obtain ⟨m, hm, i, hi, rfl⟩ := (inv.mem_circle p).mp hp
        have hmn : m ≠ n := by
          rintro rfl
          exact hpP (mem_posList.mpr ⟨i, hi, rfl⟩)
        exact ⟨m, Finset.mem_erase.mpr ⟨hmn, hm⟩, i, hi, rfl⟩
      · rintro ⟨m, hm, i, hi, rfl⟩
        obtain ⟨hmn, hm2⟩ := Finset.mem_erase.mp hm
        exact ⟨(inv.mem_circle _).mpr ⟨m, hm2, i, hi, rfl⟩, hnotP m hm2 hmn i hi⟩
    · intro m hm i hi
      have hm2 : m ∈ c.nodes.erase n := hm
      have hi2 : i < c.replicas.toNat := hi
      obtain ⟨hmn, hm3⟩ := Finset.mem_erase.mp hm2
      show ((posList c n).foldl (fun s p => s.erase p) c.servers).lookup (c.hashKey m i) = some m
      rw [lookup_eraseFold, if_neg (hnotP m hm3 hmn i hi2)]
      exact inv.lookup_eq m hm3 i hi2
    · intro p
      show p ∈ c.circle.filter (fun p => decide (p ∉ posList c n)) ↔
        p ∈ (posList c n).foldl (fun s p => s.erase p) c.servers
      rw [List.mem_filter, mem_eraseFold, inv.keys_eq p]
      simp only [decide_eq_true_eq]
      tauto
    · intro m hm m2 hm2 i hi j hj heq
      have hma : m ∈ c.nodes.erase n := hm
      have hmb : m2 ∈ c.nodes.erase n := hm2
      have hia : i < c.replicas.toNat := hi
      have hja : j < c.replicas.toNat := hj
      have heq2 : c.hashKey m i = c.hashKey m2 j := heq
      exact inv.inj m (Finset.mem_erase.mp hma).2 m2 (Finset.mem_erase.mp hmb).2
        i hia j hja heq2
  · have hfresh : ∀ i < c.replicas.toNat, c.hashKey n i ∉ c.circle :=
      hcase.resolve_left hn
    have hlen := (delete_some c n _ hdel).1
    have hserv : ∀ i < c.replicas.toNat, c.servers.lookup (c.hashKey n i) = none := by
      intro i hi
      rw [Finmap.lookup_eq_none]
      intro hk
      exact hfresh i hi ((inv.keys_eq _).mpr hk)
    have hnoop := delete_nonmember_eq_self c n hn hlen hfresh hserv
    rw [hnoop] at hdel
    obtain rfl := Option.some.inj hdel
    exact inv

/-- Every collision-free reachable state satisfies the full invariant. -/
theorem cfreach_inv (c : consistent) (hr : CFReach c) : CFInv c := by
  induction hr with
  | base r h => exact cfinv_base r h
  | add c n _ hmem hfresh hinj ih => exact cfinv_add c n ih hmem hfresh hinj
  | del c c2 n _ hcase hdel ih => exact cfinv_del c n c2 ih hcase hdel

/-- Claim C7 amended: in every reachable ring state the position sequence
is sorted ascending and its element set is exactly the key set of the
position-to-node map; on collision-free executions that never re-add a
current member, the sequence moreover has no duplicates, its length equals
the key-set cardinality, and equals replicas times the member count.  (The
cardinality clauses fail on plain reachable states: see the double-add
counterexample.) -/
theorem ring_invariant :
    (∀ c, Reach c → c.circle.Sorted (· ≤ ·) ∧ ∀ p, p ∈ c.circle ↔ p ∈ c.servers) ∧
      (∀ c, CFReach c → c.circle.Nodup ∧ c.servers.keys.card = c.circle.length ∧
        c.circle.length = c.replicas.toNat * c.nodes.card) := by
  refine ⟨reach_basicInv, fun c hcf => ?_⟩
  have inv := cfreach_inv c hcf
  refine ⟨inv.nodup, ?_, inv.len⟩
  have hkeys : c.servers.keys = c.circle.toFinset := by
    ext q
    rw [Finmap.mem_keys, List.mem_toFinset, inv.keys_eq q]
  rw [hkeys, List.toFinset_card_of_nodup inv.nodup]


/-- Claim C7 as stated is false: the reachable double-add state carries a
position sequence of length 2 while the map has one key and replicas times
members is 1. -/
theorem ring_invariant_cex :
    Reach ring2a ∧ ring2a.circle.length ≠ ring2a.replicas.toNat * ring2a.nodes.card ∧
      ring2a.servers.keys.card ≠ ring2a.circle.length := by
  refine ⟨?_, by decide, by decide⟩
  exact Reach.add _ "a" (Reach.add _ "a" (Reach.base 1 hashZ))

theorem ring_invariant_witness :
    ringW.circle.Sorted (· ≤ ·) ∧ ringW.circle.Nodup ∧
      ringW.servers.keys.card = ringW.circle.length ∧
      ringW.circle.length = ringW.replicas.toNat * ringW.nodes.card :=
  ⟨(ring_invariant.1 ringW (Reach.add _ "A" (Reach.base 1 hashW))).1,
   (ring_invariant.2 ringW (CFReach.add _ "A" (CFReach.base 1 hashW)
      (by decide) (by decide) (by decide))).1,
   (ring_invariant.2 ringW (CFReach.add _ "A" (CFReach.base 1 hashW)
      (by decide) (by decide) (by decide))).2.1,
   (ring_invariant.2 ringW (CFReach.add _ "A" (CFReach.base 1 hashW)
      (by decide) (by decide) (by decide))).2.2⟩

/-- Claim C1 amended: on a collision-free reachable state, for a member C
with at least one other member, Delete(C) succeeds and, for every key:
a key whose Get result was some other node v still resolves to v, and a
key whose Get result was C now resolves to the owner of the next position
clockwise on the reduced ring (what GetSpec computes on the new state),
which is a node that remains a member. -/
theorem delete_minimal_disruption (c : consistent) (C : String)
    (hcf : CFReach c) (hC : C ∈ c.nodes) (hB : ∃ B ∈ c.nodes, B ≠ C) (key : String) :
    ∃ c2, c.Delete C = some c2 ∧
      (∀ v, c.Get key = some v → v ≠ C → c2.Get key = some v) ∧
      (c.Get key = some C →
        ∃ v, c2.Get key = some v ∧ GetSpec c2 key = some v ∧ v ∈ c2.nodes) := by
  have inv := cfreach_inv c hcf
  have hcard : 1 ≤ c.nodes.card := Finset.card_pos.mpr ⟨C, hC⟩
  have hlen : c.replicas ≤ (c.circle.length : Int) := by
    have h1 : c.replicas.toNat ≤ c.circle.length := by
      rw [inv.len]
      calc c.replicas.toNat = c.replicas.toNat * 1 := (Nat.mul_one _).symm
        _ ≤ c.replicas.toNat * c.nodes.card := Nat.mul_le_mul_left _ hcard
    omega
  have hsF : (c.circle.filter (fun p => decide (p ∉ posList c C))).Sorted (· ≤ ·) :=
    inv.sorted.filter _
  refine ⟨_, delete_eq c C hlen, ?_, ?_⟩
  · intro v hget hvC
    rw [get_eq_selPos c key inv.sorted] at hget
    cases hsel : selPos c.circle (c.hash key) with
    | none => rw [hsel] at hget; simp at hget
    | some p =>
        rw [hsel] at hget
        have hget2 : lookupD c.servers p = v := by simpa using hget
        have hp : p ∈ c.circle := selPos_mem hsel
        obtain ⟨m, hm, i, hi, rfl⟩ := (inv.mem_circle p).mp hp
        have hlu : c.servers.lookup (c.hashKey m i) = some m := inv.lookup_eq m hm i hi
        have hv : v = m := by rw [← hget2, lookupD, hlu]; rfl
        subst hv
        have hpP : c.hashKey v i ∉ posList c C := by
          intro hP
          obtain ⟨j, hj, heq⟩ := mem_posList.mp hP
          exact hvC (inv.inj v hm C hC i hi j hj heq).1
        have hsel2 := selPos_filter (fun p => decide (p ∉ posList c C))
          inv.sorted hsel (decide_eq_true hpP)
        rw [get_eq_selPos _ key hsF]
        show (selPos (c.circle.filter (fun p => decide (p ∉ posList c C)))
            (c.hash key)).map (lookupD ((posList c C).foldl (fun s p => s.erase p) c.servers))
          = some v
        rw [hsel2]
        show some (lookupD ((posList c C).foldl (fun s p => s.erase p) c.servers)
          (c.hashKey v i)) = some v
        rw [lookupD, lookup_eraseFold, if_neg hpP, hlu]
        rfl
  · intro hget
    rw [get_eq_selPos c key inv.sorted] at hget
    cases hsel : selPos c.circle (c.hash key) with
    | none => rw [hsel] at hget; simp at hget
    | some p =>
        have hp : p ∈ c.circle := selPos_mem hsel
        have hlpos : 0 < c.circle.length :=
          List.length_pos.mpr (List.ne_nil_of_mem hp)
        have hR1 : 1 ≤ c.replicas.toNat := by
          by_contra h0
          have hz : c.replicas.toNat = 0 := by omega
          rw [inv.len, hz, Nat.zero_mul] at hlpos
          exact absurd hlpos (by omega)
        obtain ⟨B, hBm, hBC⟩ := hB
        have hBpos : c.hashKey B 0 ∈ c.circle :=
          (inv.mem_circle _).mpr ⟨B, hBm, 0, hR1, rfl⟩
        have hBP : c.hashKey B 0 ∉ posList c C := by
          intro hP
          obtain ⟨j, hj, heq⟩ := mem_posList.mp hP
          exact hBC (inv.inj B hBm C hC 0 hR1 j hj heq).1
        have hne2 : c.circle.filter (fun p => decide (p ∉ posList c C)) ≠ [] :=
          List.ne_nil_of_mem (List.mem_filter.mpr ⟨hBpos, decide_eq_true hBP⟩)
        obtain ⟨p2, hp2⟩ := selPos_isSome (c.hash key) hne2
        have hp2mem := List.mem_filter.mp (selPos_mem hp2)
        have hp2P : p2 ∉ posList c C := of_decide_eq_true hp2mem.2
        obtain ⟨m2, hm2, i2, hi2, hp2eq⟩ := (inv.mem_circle p2).mp hp2mem.1
        subst hp2eq
        have hm2C : m2 ≠ C := by
          rintro rfl
          exact hp2P (mem_posList.mpr ⟨i2, hi2, rfl⟩)
        have hgoal : (selPos (c.circle.filter (fun p => decide (p ∉ posList c C)))
            (c.hash key)).map (lookupD ((posList c C).foldl (fun s p => s.erase p) c.servers))
          = some m2 := by
          rw [hp2]
          show some (lookupD ((posList c C).foldl (fun s p => s.erase p) c.servers)
            (c.hashKey m2 i2)) = some m2
          rw [lookupD, lookup_eraseFold, if_neg hp2P, inv.lookup_eq m2 hm2 i2 hi2]
          rfl
        refine ⟨m2, ?_, ?_, ?_⟩
        · rw [get_eq_selPos _ key hsF]
          exact hgoal
        · rw [getSpec_eq_selPos]
          exact hgoal
        · show m2 ∈ c.nodes.erase C
          exact Finset.mem_erase.mpr ⟨hm2C, hm2⟩


/-- Claim C1 as stated is false: on the reachable state ringC1 the key k
resolves to B (not the deleted C), yet after Delete(C) - which removes the
shared position 10 - the same key resolves to A. -/
theorem delete_minimal_disruption_cex :
    Reach ringC1 ∧ ringC1.Get "k" = some "B" ∧ ("B" : String) ≠ "C" ∧
      (ringC1.Delete "C").map (fun c2 => c2.Get "k") = some (some "A") ∧
      some (some "A") ≠ some (some "B") := by
  refine ⟨?_, by decide, by decide, by decide, by decide⟩
  exact Reach.add _ "A" (Reach.add _ "B" (Reach.add _ "C" (Reach.base 1 hashC1)))

theorem delete_minimal_disruption_witness :
    ∃ c2, ringW2.Delete "B" = some c2 ∧
      (∀ v, ringW2.Get "k" = some v → v ≠ "B" → c2.Get "k" = some v) ∧
      (ringW2.Get "k" = some "B" →
        ∃ v, c2.Get "k" = some v ∧ GetSpec c2 "k" = some v ∧ v ∈ c2.nodes) :=
  delete_minimal_disruption ringW2 "B"
    (CFReach.add _ "B" (CFReach.add _ "A" (CFReach.base 1 hashW)
        (by decide) (by decide) (by decide))
      (by decide) (by decide) (by decide))
    (by decide) ⟨"A", by decide, by decide⟩ "k"
